import Mathlib

/-!
# A verification model of the Dolphin `CoreTiming` event scheduler

The repository ships the unit tests of its `CoreTiming` scheduler
(`Source/UnitTests/Core/CoreTimingTest.cpp`) while the scheduler itself lives
outside the sampled sources.  The definitions below therefore embed the
scheduler as described by the specification, calibrated against the behaviour
the unit tests pin down (slice accounting, downcount publication, FIFO
tie-breaking, cross-thread staging, chain scheduling, overclock factors).

Machine integers (`s64`/`int`) are modelled as `Int`; the floating point
speed factor is modelled as an explicit fraction of integers (`Factor`), with
rounding written out as integer arithmetic (`roundMul`, `roundDiv`) so every
operation evaluates inside the kernel; bridge lemmas relate that arithmetic
to `round` on `ℚ`, the form the specification uses.
-/

namespace CoreTiming

/-- Modelled from the spec: opaque event-type handle produced by
`RegisterEvent`; the registry itself (name and callback storage) is missing
from the sampled sources, so a handle is simply an index. -/
abbrev EventHandle := Nat

/-- Modelled from the spec: a pending event instance owned by the event queue
(`trigger_time`, event type, opaque payload, stable submission sequence
number). -/
structure PendingEvent where
  trigger_time : Int
  event_type : EventHandle
  user_data : Nat
  sequence : Nat
deriving DecidableEq, Repr

/-- Modelled from the spec: a cross-thread staging entry.  The submitting
thread records both its requested offset and the absolute trigger time it
computed from its (possibly stale) read of the global timer, as exercised by
`TEST(CoreTiming, ScheduleIntoPast)`. -/
structure InboxEntry where
  offset : Int
  trigger_time : Int
  event_type : EventHandle
  user_data : Nat
deriving DecidableEq, Repr

/-- Modelled from the spec: the positive real speed multiplier, represented
exactly as a fraction `num / den` of integers (the tests exercise factors
such as 2.0, 0.5 and 0.1, all exactly representable). -/
structure Factor where
  num : Int
  den : Int
deriving DecidableEq, Repr

/-- The rational value of a factor. -/
def qfactor (f : Factor) : ℚ := (f.num : ℚ) / (f.den : ℚ)

/-- `roundMul x n d` is `round (x * (n / d))` computed in integer
arithmetic: `⌊(2 x n + d) / (2 d)⌋` (integer division on `Int` is floor
division for a positive divisor). -/
def roundMul (x num den : Int) : Int := (2 * x * num + den) / (2 * den)

/-- `roundDiv x n d` is `round (x / (n / d))` computed in integer
arithmetic. -/
def roundDiv (x num den : Int) : Int := (2 * x * den + num) / (2 * num)

/-- Modelled from the spec: the scheduler's whole mutable state — virtual
timer, published downcount, current slice length, current speed factor, the
slice-factor snapshot, the ordered event queue, the cross-thread inbox and
the next submission sequence number. -/
structure SchedState where
  global_timer : Int
  downcount : Int
  slice_length : Int
  speed_factor : Factor
  slice_factor : Factor
  queue : List PendingEvent
  inbox : List InboxEntry
  next_seq : Nat
deriving DecidableEq, Repr

/-- Modelled from the spec: `MAX_SLICE_LENGTH = 20000`, the fixed bound on how
long the core may run without re-entering the scheduler (the test copies the
same constant from the CoreTiming internals). -/
def MaxSliceLength : Int := 20000

/-- Strict lexicographic order on the queue key `(trigger_time, sequence)`. -/
def evKeyLT (a b : PendingEvent) : Prop :=
  a.trigger_time < b.trigger_time ∨
    (a.trigger_time = b.trigger_time ∧ a.sequence < b.sequence)

instance : DecidableRel evKeyLT := fun a b => by
  unfold evKeyLT; infer_instance

/-- Modelled from the spec: ordered insertion into the event queue.  A new
event goes in front of the first queued event that is strictly greater in the
`(trigger_time, sequence)` key, so equal trigger times keep first-submitted
first-fired order. -/
def qinsert (e : PendingEvent) : List PendingEvent → List PendingEvent
  | [] => [e]
  | x :: xs => if evKeyLT e x then e :: x :: xs else x :: qinsert e xs

/-- Modelled from the spec: the state right after `Init` — timer zero, unit
factors, empty queue and inbox, downcount and slice length published at
`MaxSliceLength`. -/
def initState : SchedState :=
  { global_timer := 0
    downcount := MaxSliceLength
    slice_length := MaxSliceLength
    speed_factor := ⟨1, 1⟩
    slice_factor := ⟨1, 1⟩
    queue := []
    inbox := []
    next_seq := 0 }

/-- Modelled from the spec: the core-thread `ScheduleEvent` path.  The event
is inserted at `global_timer + offset`; when it becomes the queue's minimum
the scheduler republishes the downcount as
`max 0 (round (offset * speed_factor))` — but only when that tightens the
current downcount (scheduling never raises it), shrinking the slice length by
the same amount so the elapsed-cycle accounting of the next advance is
preserved. -/
def scheduleCore (offset : Int) (et : EventHandle) (ud : Nat)
    (st : SchedState) : SchedState :=
  let tt := st.global_timer + offset
  let e : PendingEvent := ⟨tt, et, ud, st.next_seq⟩
  let q' := qinsert e st.queue
  let st' := { st with queue := q', next_seq := st.next_seq + 1 }
  if q'.head? = some e then
    let nd := max 0 (roundMul offset st.speed_factor.num st.speed_factor.den)
    if nd < st.downcount then
      { st' with
        downcount := nd
        slice_length := st.slice_length - st.downcount + nd }
    else st'
  else st'

/-- Modelled from the spec: the `NON_CPU` submission path appends to the
cross-thread inbox without touching the event queue, recording the absolute
trigger time computed from the submitter's current (possibly stale) view of
the global timer. -/
def scheduleNonCore (offset : Int) (et : EventHandle) (ud : Nat)
    (st : SchedState) : SchedState :=
  { st with
    inbox := st.inbox ++ [⟨offset, st.global_timer + offset, et, ud⟩] }

/-- Modelled from the spec: the configuration knob updating the speed factor;
it takes effect immediately for downcount publication and at the next
slice-factor snapshot. -/
def setSpeedFactor (f : Factor) (st : SchedState) : SchedState :=
  { st with speed_factor := f }

/-- The execution core's side of the contract: it decrements the published
downcount while retiring instructions; the tests set it directly before each
`Advance`. -/
def setDowncount (d : Int) (st : SchedState) : SchedState :=
  { st with downcount := d }

/-- Modelled from the spec: step 1–2 of `Advance` — compute the real cycles
executed during the finished slice (`slice_length - downcount`, the downcount
may be negative on overrun) and convert them back to virtual cycles with the
slice-factor snapshot. -/
def updateTimer (st : SchedState) : SchedState :=
  { st with
    global_timer :=
      st.global_timer +
        roundDiv (st.slice_length - st.downcount)
          st.slice_factor.num st.slice_factor.den }

/-- Modelled from the spec: merging a list of staged cross-thread entries —
each is inserted with the trigger time it carries and a fresh sequence
number, in submission order. -/
def mergeList : List InboxEntry → SchedState → SchedState
  | [], st => st
  | ent :: rest, st =>
      mergeList rest
        { st with
          queue := qinsert ⟨ent.trigger_time, ent.event_type, ent.user_data,
            st.next_seq⟩ st.queue
          next_seq := st.next_seq + 1 }

/-- Modelled from the spec: step 3 of `Advance` — drain the cross-thread
inbox into the event queue. -/
def mergeInbox (st : SchedState) : SchedState :=
  mergeList st.inbox { st with inbox := [] }

/-- Modelled from the spec: the alternative merge the specification text
describes, in which a staged request's trigger time is recomputed from the
global timer current at merge time instead of the one read at submission
time.  Kept for comparison with `mergeList`. -/
def mergeListSpecWords : List InboxEntry → SchedState → SchedState
  | [], st => st
  | ent :: rest, st =>
      mergeListSpecWords rest
        { st with
          queue := qinsert ⟨st.global_timer + ent.offset, ent.event_type,
            ent.user_data, st.next_seq⟩ st.queue
          next_seq := st.next_seq + 1 }

/-- Merge variant following the spec's merge-time wording. -/
def mergeInboxSpecWords (st : SchedState) : SchedState :=
  mergeListSpecWords st.inbox { st with inbox := [] }

/-- A fired-event record: the popped event together with the lateness handed
to its callback. -/
abbrev Fired := PendingEvent × Int

/-- A callback receives its event type, payload and lateness and may mutate
the scheduler state (e.g. by calling `scheduleCore`). -/
abbrev Callback := EventHandle → Nat → Int → SchedState → SchedState

/-- The trivial callback. -/
def noopCb : Callback := fun _ _ _ st => st

/-- Modelled from the spec: step 4 of `Advance` — repeatedly pop the queue
while its minimum trigger time is at or before the global timer, invoking the
callback with `lateness = global_timer - trigger_time`.  Events a callback
schedules are visible to the same loop when already due.  The loop is
fuelled because a callback chaining zero-delay reschedules is a caller bug
the scheduler does not detect. -/
def drainLoop (cb : Callback) : Nat → SchedState → List Fired →
    SchedState × List Fired
  | 0, st, log => (st, log)
  | fuel + 1, st, log =>
    match st.queue with
    | [] => (st, log)
    | e :: rest =>
      if e.trigger_time ≤ st.global_timer then
        let lat := st.global_timer - e.trigger_time
        let st' := cb e.event_type e.user_data lat { st with queue := rest }
        drainLoop cb fuel st' (log ++ [(e, lat)])
      else (st, log)

/-- Modelled from the spec: steps 5–7 of `Advance` — snapshot the slice
factor from the current speed factor, compute the next slice length
(`min MaxSliceLength (round ((min_trigger_time - global_timer) *
slice_factor))` for a non-empty queue, `round (MaxSliceLength *
slice_factor)` for an empty one) and publish it as the downcount. -/
def publishSlice (st : SchedState) : SchedState :=
  let f := st.speed_factor
  let sl :=
    match st.queue.head? with
    | none => roundMul MaxSliceLength f.num f.den
    | some e =>
        min MaxSliceLength
          (roundMul (e.trigger_time - st.global_timer) f.num f.den)
  { st with slice_factor := f, slice_length := sl, downcount := sl }

/-- Modelled from the spec: the full `Advance` operation — update the timer
from the finished slice, merge the cross-thread inbox, drain due events, then
snapshot the factor and publish the next slice.  Returns the new state and
the list of fired events. -/
def advance (cb : Callback) (fuel : Nat) (st : SchedState) :
    SchedState × List Fired :=
  let st2 := mergeInbox (updateTimer st)
  let r := drainLoop cb fuel st2 []
  (publishSlice r.fst, r.snd)

/-- `Advance` with the spec-worded merge-time inbox conversion, for
comparison. -/
def advanceSpecWords (cb : Callback) (fuel : Nat) (st : SchedState) :
    SchedState × List Fired :=
  let st2 := mergeInboxSpecWords (updateTimer st)
  let r := drainLoop cb fuel st2 []
  (publishSlice r.fst, r.snd)

/-- The test harness pattern: the core consumes its whole published slice
(downcount reaches `0`) and re-enters the scheduler; `runDrains` repeats that
for a number of rounds and concatenates the fired logs. -/
def runDrains (cb : Callback) (fuel : Nat) : Nat → SchedState → List Fired
  | 0, _ => []
  | n + 1, st =>
    let r := advance cb fuel (setDowncount 0 st)
    r.snd ++ runDrains cb fuel n r.fst

/-- Submit a list of (handle, payload) pairs with a common offset from the
core thread, in order — the shape of the `SharedSlot` test. -/
def scheduleAll (o : Int) : List (EventHandle × Nat) → SchedState → SchedState
  | [], st => st
  | p :: rest, st => scheduleAll o rest (scheduleCore o p.1 p.2 st)

/-- The pending events that submitting `evs` at offset `o` from timer `gt`
starting at sequence number `seq` creates, in submission order. -/
def buildEvents (o : Int) (gt : Int) :
    List (EventHandle × Nat) → Nat → List PendingEvent
  | [], _ => []
  | p :: rest, seq => ⟨gt + o, p.1, p.2, seq⟩ :: buildEvents o gt rest (seq + 1)

/-- The handle of the rescheduling event in the chain-scheduling scenario. -/
def rsHandle : EventHandle := 3

/-- The `ChainScheduling` test's callback: with `user_data` counting the
remaining runs, it reschedules itself 1000 virtual cycles ahead while more
than one run remains. -/
def rsCallback : Callback := fun et ud _ st =>
  if et = rsHandle then
    (if 0 < ud - 1 then scheduleCore 1000 rsHandle (ud - 1) st else st)
  else st

/-- The `ChainScheduling` start state: events at offsets 800, 1000, 2200 and
the rescheduling event at offset 1000 with three runs remaining. -/
def chainState : SchedState :=
  scheduleCore 1000 rsHandle 3 (scheduleCore 2200 2 93
    (scheduleCore 1000 1 144 (scheduleCore 800 0 42 initState)))

/-- The chain-scheduling scenario after `n` full slices: the core consumes
each published downcount and advances. -/
def chainAdv : Nat → SchedState × List Fired
  | 0 => (chainState, [])
  | n + 1 => advance rsCallback 9 (setDowncount 0 (chainAdv n).fst)

/-- The handle whose callback schedules into the past in the
`ScheduleIntoPast` scenario. -/
def chainCbHandle : EventHandle := 2

/-- The `ScheduleIntoPast` test's chain callback: when it fires it schedules
handle 0 a thousand cycles into the past. -/
def chainCallback : Callback := fun et ud _ st =>
  if et = chainCbHandle then scheduleCore (-1000) 0 (ud - 1) st else st

/-- Start state of the schedule-into-past scenario: the chain event 1000
cycles ahead on a fresh scheduler. -/
def c10state : SchedState := scheduleCore 1000 chainCbHandle 43 initState

/-- Pre-state of the cross-thread staging scenario, mirroring the
`ScheduleIntoPast` test: timer at 1000 with a full fresh slice published. -/
def c9base : SchedState :=
  { global_timer := 1000
    downcount := 20000
    slice_length := 20000
    speed_factor := ⟨1, 1⟩
    slice_factor := ⟨1, 1⟩
    queue := []
    inbox := []
    next_seq := 2 }

/-- A foreign thread samples the timer just before the core advances it:
modelled — exactly as the unit test does — by lowering the timer by 1000,
staging the request, and restoring the timer. -/
def c9staged : SchedState :=
  { (scheduleNonCore 0 1 144 { c9base with global_timer := 0 }) with
    global_timer := 1000 }

/-- The pending events a staged inbox produces at merge time: the stored
(submission-time) trigger times with fresh consecutive sequence numbers, in
submission order. -/
def stagedEvents : List InboxEntry → Nat → List PendingEvent
  | [], _ => []
  | ent :: rest, seq =>
      ⟨ent.trigger_time, ent.event_type, ent.user_data, seq⟩ ::
        stagedEvents rest (seq + 1)

/-- The due predicate of the draining loop, relative to a timer value. -/
def dueBy (t : Int) (e : PendingEvent) : Bool := decide (e.trigger_time ≤ t)

/-- The `BasicOrder` test scenario: five events scheduled at offsets
1000, 500, 800, 100, 1200 from a freshly initialised scheduler. -/
def basicOrderState : SchedState :=
  scheduleCore 1200 4 7 (scheduleCore 100 3 1026 (scheduleCore 800 2 93
    (scheduleCore 500 1 144 (scheduleCore 1000 0 42 initState))))

/-- A state with slice factor 3/4 whose slice was published for the single
event one virtual cycle ahead (`slice_length = round (1 * 3/4) = 1`) and
whose core has overrun that slice by one real cycle. -/
def c4state : SchedState :=
  { global_timer := 0
    downcount := -1
    slice_length := 1
    speed_factor := ⟨3, 4⟩
    slice_factor := ⟨3, 4⟩
    queue := [⟨1, 0, 0, 0⟩]
    inbox := []
    next_seq := 1 }

/-! ## Helper lemmas -/

lemma round_nonneg_of_nonneg {q : ℚ} (h : 0 ≤ q) : 0 ≤ round q := by
  rw [round_eq]
  have h2 : (0 : ℚ) ≤ q + 1 / 2 := by linarith
  exact Int.le_floor.mpr (by exact_mod_cast h2)

lemma round_nonpos_of_nonpos {q : ℚ} (h : q ≤ 0) : round q ≤ 0 := by
  rw [round_eq]
  have h2 : q + 1 / 2 < 1 := by linarith
  have h3 : ⌊q + 1 / 2⌋ < (1 : ℤ) := Int.floor_lt.mpr (by exact_mod_cast h2)
  omega

lemma int_floor_intCast_div {a b : Int} (hb : 0 < b) :
    ⌊((a : ℚ) / (b : ℚ))⌋ = a / b := by
  have h1 : ((b.toNat : ℕ) : ℤ) = b := Int.toNat_of_nonneg hb.le
  have h2 : ((b.toNat : ℕ) : ℚ) = (b : ℚ) := by exact_mod_cast congrArg (fun z : ℤ => (z : ℚ)) h1
  rw [← h2, ← h1]
  exact Rat.floor_intCast_div_natCast a b.toNat

/-- `roundMul` agrees with the specification's `round (x * factor)` for a
positive denominator. -/
lemma roundMul_eq {x num den : Int} (hd : 0 < den) :
    roundMul x num den = round ((x : ℚ) * ((num : ℚ) / (den : ℚ))) := by
  rw [round_eq]
  have hden : (den : ℚ) ≠ 0 := Int.cast_ne_zero.mpr hd.ne'
  have hkey : (x : ℚ) * ((num : ℚ) / (den : ℚ)) + 1 / 2 =
      ((2 * x * num + den : Int) : ℚ) / ((2 * den : Int) : ℚ) := by
    push_cast
    field_simp
    ring
  rw [hkey, int_floor_intCast_div (by omega)]
  rfl

/-- `roundDiv` agrees with the specification's `round (x / factor)` for a
positive factor. -/
lemma roundDiv_eq {x num den : Int} (hn : 0 < num) (hd : 0 < den) :
    roundDiv x num den = round ((x : ℚ) / ((num : ℚ) / (den : ℚ))) := by
  rw [round_eq]
  have hnum : (num : ℚ) ≠ 0 := Int.cast_ne_zero.mpr hn.ne'
  have hden : (den : ℚ) ≠ 0 := Int.cast_ne_zero.mpr hd.ne'
  have hkey : (x : ℚ) / ((num : ℚ) / (den : ℚ)) + 1 / 2 =
      ((2 * x * den + num : Int) : ℚ) / ((2 * num : Int) : ℚ) := by
    push_cast
    field_simp
    ring
  rw [hkey, int_floor_intCast_div (by omega)]
  rfl

lemma evKeyLT_trans {a b c : PendingEvent} (h1 : evKeyLT a b)
    (h2 : evKeyLT b c) : evKeyLT a c := by
  unfold evKeyLT at *
  rcases h1 with h1 | ⟨h1, h1'⟩ <;> rcases h2 with h2 | ⟨h2, h2'⟩
  · exact Or.inl (h1.trans h2)
  · exact Or.inl (h2 ▸ h1)
  · exact Or.inl (h1 ▸ h2)
  · exact Or.inr ⟨h1.trans h2, h1'.trans h2'⟩

lemma mem_qinsert {x e : PendingEvent} {q : List PendingEvent} :
    x ∈ qinsert e q ↔ x = e ∨ x ∈ q := by
  induction q with
  | nil => simp [qinsert]
  | cons y ys ih =>
      unfold qinsert
      split
      · simp [or_comm, or_assoc, or_left_comm]
      · simp only [List.mem_cons, ih]
        tauto

lemma qinsert_pairwise {e : PendingEvent} {q : List PendingEvent}
    (hseq : ∀ x ∈ q, x.sequence ≠ e.sequence)
    (hq : q.Pairwise evKeyLT) : (qinsert e q).Pairwise evKeyLT := by
  induction q with
  | nil => simp [qinsert]
  | cons y ys ih =>
      rcases List.pairwise_cons.mp hq with ⟨hy, hys⟩
      unfold qinsert
      split
      · rename_i hlt
        refine List.pairwise_cons.mpr ⟨?_, hq⟩
        intro z hz
        rcases List.mem_cons.mp hz with rfl | hz
        · exact hlt
        · exact evKeyLT_trans hlt (hy z hz)
      · rename_i hnlt
        refine List.pairwise_cons.mpr ⟨?_, ih (fun x hx => hseq x (List.mem_cons_of_mem _ hx)) hys⟩
        intro z hz
        rcases mem_qinsert.mp hz with rfl | hz
        · -- `z = e`: from `¬ evKeyLT e y` and distinct sequences, `y` precedes `e`
          have hne := hseq y (List.mem_cons_self _ _)
          unfold evKeyLT at hnlt ⊢
          push_neg at hnlt
          rcases lt_trichotomy y.trigger_time z.trigger_time with h | h | h
          · exact Or.inl h
          · refine Or.inr ⟨h, ?_⟩
            have := hnlt.1
            have h2 := hnlt.2 h.symm
            omega
          · exact absurd h (not_lt.mpr hnlt.1)
        · exact hy z hz

lemma qinsert_append_of_not_lt {e : PendingEvent} {q : List PendingEvent}
    (h : ∀ x ∈ q, ¬ evKeyLT e x) : qinsert e q = q ++ [e] := by
  induction q with
  | nil => rfl
  | cons y ys ih =>
      unfold qinsert
      rw [if_neg (h y (List.mem_cons_self _ _))]
      simp [ih (fun x hx => h x (List.mem_cons_of_mem _ hx))]

lemma drainLoop_queue_nil {cb : Callback} {fuel : Nat} {st : SchedState}
    {log : List Fired} (h : st.queue = []) :
    drainLoop cb fuel st log = (st, log) := by
  cases fuel with
  | zero => rfl
  | succ n => unfold drainLoop; rw [h]

lemma drainLoop_succ (cb : Callback) (fuel : Nat) (st : SchedState)
    (log : List Fired) :
    drainLoop cb (fuel + 1) st log =
      match st.queue with
      | [] => (st, log)
      | e :: rest =>
        if e.trigger_time ≤ st.global_timer then
          drainLoop cb fuel
            (cb e.event_type e.user_data (st.global_timer - e.trigger_time)
              { st with queue := rest })
            (log ++ [(e, st.global_timer - e.trigger_time)])
        else (st, log) := rfl

lemma drainLoop_due {cb : Callback} {fuel : Nat} {st : SchedState}
    {log : List Fired} {e : PendingEvent} {rest : List PendingEvent}
    (hq : st.queue = e :: rest) (hd : e.trigger_time ≤ st.global_timer) :
    drainLoop cb (fuel + 1) st log =
      drainLoop cb fuel
        (cb e.event_type e.user_data (st.global_timer - e.trigger_time)
          { st with queue := rest })
        (log ++ [(e, st.global_timer - e.trigger_time)]) := by
  rw [drainLoop_succ, hq]
  exact if_pos hd

lemma drainLoop_not_due {cb : Callback} {fuel : Nat} {st : SchedState}
    {log : List Fired} {e : PendingEvent} {rest : List PendingEvent}
    (hq : st.queue = e :: rest) (hd : ¬ e.trigger_time ≤ st.global_timer) :
    drainLoop cb fuel st log = (st, log) := by
  cases fuel with
  | zero => rfl
  | succ n =>
      rw [drainLoop_succ, hq]
      exact if_neg hd

lemma drainLoop_snd_append (cb : Callback) :
    ∀ (fuel : Nat) (st : SchedState) (log : List Fired),
      ∃ t, (drainLoop cb fuel st log).snd = log ++ t := by
  intro fuel
  induction fuel with
  | zero =>
      intro st log
      refine ⟨[], ?_⟩
      show ((st, log) : SchedState × List Fired).snd = log ++ []
      exact (List.append_nil log).symm
  | succ n ih =>
      intro st log
      match hq : st.queue with
      | [] =>
          refine ⟨[], ?_⟩
          rw [drainLoop_queue_nil hq]
          exact (List.append_nil log).symm
      | e :: rest =>
          by_cases hd : e.trigger_time ≤ st.global_timer
          · rw [drainLoop_due hq hd]
            obtain ⟨t, ht⟩ := ih _ (log ++ [(e, st.global_timer - e.trigger_time)])
            exact ⟨(e, st.global_timer - e.trigger_time) :: t,
              by rw [ht]; simp⟩
          · refine ⟨[], ?_⟩
            rw [drainLoop_not_due hq hd]
            exact (List.append_nil log).symm

/-- The state with an emptied inbox is the state itself when the inbox was
already empty. -/
lemma state_with_nil_inbox {st : SchedState} (h : st.inbox = []) :
    ({ st with inbox := [] } : SchedState) = st := by
  cases st
  simp_all

lemma mergeInbox_of_nil {st : SchedState} (h : st.inbox = []) :
    mergeInbox st = st := by
  unfold mergeInbox
  rw [h, state_with_nil_inbox h]
  rfl

/-- The due predicate of the draining loop, relative to a timer value. -/
lemma evKeyLT_tt_le {a b : PendingEvent} (h : evKeyLT a b) :
    a.trigger_time ≤ b.trigger_time := by
  rcases h with h | ⟨h, _⟩
  · exact le_of_lt h
  · exact le_of_eq h

lemma state_with_queue_self {st : SchedState} {q : List PendingEvent}
    (h : st.queue = q) : ({ st with queue := q } : SchedState) = st := by
  cases st
  simp_all

lemma drainLoop_noop_core (fuel : Nat) :
    ∀ (q : List PendingEvent) (gt dc sl : Int) (sf slf : Factor)
      (ib : List InboxEntry) (ns : Nat) (log : List Fired),
      q.length ≤ fuel →
      drainLoop noopCb fuel ⟨gt, dc, sl, sf, slf, q, ib, ns⟩ log =
        (⟨gt, dc, sl, sf, slf, q.dropWhile (dueBy gt), ib, ns⟩,
          log ++ (q.takeWhile (dueBy gt)).map
            (fun e => (e, gt - e.trigger_time))) := by
  induction fuel with
  | zero =>
      intro q gt dc sl sf slf ib ns log h
      have hq : q = [] := List.eq_nil_of_length_eq_zero (Nat.le_zero.mp h)
      subst hq
      rw [drainLoop_queue_nil (show (SchedState.mk gt dc sl sf slf [] ib ns).queue = []
        from rfl)]
      simp
  | succ n ih =>
      intro q gt dc sl sf slf ib ns log h
      cases q with
      | nil =>
          rw [drainLoop_queue_nil (show (SchedState.mk gt dc sl sf slf [] ib ns).queue = []
            from rfl)]
          simp
      | cons e rest =>
          by_cases hd : e.trigger_time ≤ gt
          · rw [drainLoop_due rfl hd]
            show drainLoop noopCb n ⟨gt, dc, sl, sf, slf, rest, ib, ns⟩ _ = _
            rw [ih rest gt dc sl sf slf ib ns _ (by simpa using Nat.le_of_succ_le_succ h)]
            rw [List.dropWhile_cons, List.takeWhile_cons]
            have htrue : dueBy gt e = true := by simp [dueBy, hd]
            rw [htrue]
            simp
          · rw [drainLoop_not_due rfl hd]
            rw [List.dropWhile_cons, List.takeWhile_cons]
            have hfalse : dueBy gt e = false := by simp [dueBy, hd]
            rw [hfalse]
            simp

/-- With the trivial callback, draining pops exactly the due prefix of the
queue (in queue order) and leaves the rest, never touching the timer. -/
lemma drainLoop_noop (fuel : Nat) (st : SchedState) (log : List Fired)
    (h : st.queue.length ≤ fuel) :
    drainLoop noopCb fuel st log =
      ({ st with queue := st.queue.dropWhile (dueBy st.global_timer) },
        log ++ (st.queue.takeWhile (dueBy st.global_timer)).map
          (fun e => (e, st.global_timer - e.trigger_time))) := by
  obtain ⟨gt, dc, sl, sf, slf, q, ib, ns⟩ := st
  exact drainLoop_noop_core fuel q gt dc sl sf slf ib ns log h

lemma advance_fst (cb : Callback) (fuel : Nat) (st : SchedState) :
    (advance cb fuel st).fst =
      publishSlice (drainLoop cb fuel (mergeInbox (updateTimer st)) []).fst := rfl

lemma advance_snd (cb : Callback) (fuel : Nat) (st : SchedState) :
    (advance cb fuel st).snd =
      (drainLoop cb fuel (mergeInbox (updateTimer st)) []).snd := rfl

lemma publishSlice_queue (st : SchedState) : (publishSlice st).queue = st.queue := rfl

lemma publishSlice_inbox (st : SchedState) : (publishSlice st).inbox = st.inbox := rfl

lemma publishSlice_global_timer (st : SchedState) :
    (publishSlice st).global_timer = st.global_timer := rfl

lemma updateTimer_queue (st : SchedState) : (updateTimer st).queue = st.queue := rfl

lemma updateTimer_inbox (st : SchedState) : (updateTimer st).inbox = st.inbox := rfl

lemma setDowncount_queue (d : Int) (st : SchedState) :
    (setDowncount d st).queue = st.queue := rfl

lemma setDowncount_inbox (d : Int) (st : SchedState) :
    (setDowncount d st).inbox = st.inbox := rfl

/-- The fired log of a trivial-callback `advance`: the due prefix of the
queue, in queue order, with lateness measured from the updated timer. -/
lemma advance_noop_snd (fuel : Nat) (st : SchedState) (hin : st.inbox = [])
    (hfuel : st.queue.length ≤ fuel) :
    (advance noopCb fuel st).snd =
      (st.queue.takeWhile (dueBy (updateTimer st).global_timer)).map
        (fun e => (e, (updateTimer st).global_timer - e.trigger_time)) := by
  rw [advance_snd, mergeInbox_of_nil (show (updateTimer st).inbox = [] from hin),
    drainLoop_noop fuel (updateTimer st) []
      (show (updateTimer st).queue.length ≤ fuel from hfuel)]
  rfl

/-- The state of a trivial-callback `advance`: the remaining (not yet due)
suffix of the queue with a freshly published slice. -/
lemma advance_noop_fst (fuel : Nat) (st : SchedState) (hin : st.inbox = [])
    (hfuel : st.queue.length ≤ fuel) :
    (advance noopCb fuel st).fst =
      publishSlice
        { updateTimer st with
          queue := st.queue.dropWhile (dueBy (updateTimer st).global_timer) } := by
  rw [advance_fst, mergeInbox_of_nil (show (updateTimer st).inbox = [] from hin),
    drainLoop_noop fuel (updateTimer st) []
      (show (updateTimer st).queue.length ≤ fuel from hfuel)]
  rfl

lemma pairwise_dropWhile_not_due {t : Int} :
    ∀ {q : List PendingEvent}, q.Pairwise evKeyLT →
      ∀ x ∈ q.dropWhile (dueBy t), t < x.trigger_time := by
  intro q
  induction q with
  | nil => simp
  | cons e rest ih =>
      intro hq x hx
      rcases List.pairwise_cons.mp hq with ⟨he, hrest⟩
      rw [List.dropWhile_cons] at hx
      by_cases hd : e.trigger_time ≤ t
      · rw [if_pos (by simpa [dueBy] using hd)] at hx
        exact ih hrest x hx
      · rw [if_neg (by simpa [dueBy] using hd)] at hx
        rcases List.mem_cons.mp hx with rfl | hx
        · omega
        · have := evKeyLT_tt_le (he x hx)
          omega

lemma mem_takeWhile_due {t : Int} {q : List PendingEvent} {x : PendingEvent}
    (hx : x ∈ q.takeWhile (dueBy t)) : x.trigger_time ≤ t := by
  have := List.mem_takeWhile_imp hx
  simpa [dueBy] using this

lemma publishSlice_downcount (st : SchedState) :
    (publishSlice st).downcount =
      match (publishSlice st).queue.head? with
      | none =>
          roundMul MaxSliceLength (publishSlice st).slice_factor.num
            (publishSlice st).slice_factor.den
      | some e =>
          min MaxSliceLength
            (roundMul (e.trigger_time - (publishSlice st).global_timer)
              (publishSlice st).slice_factor.num
              (publishSlice st).slice_factor.den) := by
  unfold publishSlice
  cases h : st.queue.head? <;> simp [h]

lemma runDrains_zero (cb : Callback) (fuel : Nat) (st : SchedState) :
    runDrains cb fuel 0 st = [] := rfl

lemma runDrains_succ (cb : Callback) (fuel n : Nat) (st : SchedState) :
    runDrains cb fuel (n + 1) st =
      (advance cb fuel (setDowncount 0 st)).snd ++
        runDrains cb fuel n (advance cb fuel (setDowncount 0 st)).fst := rfl

/-- Every event fired by repeated trivial-callback advances was pending in
the starting queue. -/
lemma runDrains_fst_mem (fuel : Nat) :
    ∀ (n : Nat) (st : SchedState), st.inbox = [] → st.queue.length ≤ fuel →
      ∀ p ∈ runDrains noopCb fuel n st, p.fst ∈ st.queue := by
  intro n
  induction n with
  | zero => intro st _ _ p hp; simp [runDrains_zero] at hp
  | succ m ih =>
      intro st hin hlen p hp
      rw [runDrains_succ] at hp
      have hin0 : (setDowncount 0 st).inbox = [] := hin
      have hlen0 : (setDowncount 0 st).queue.length ≤ fuel := hlen
      have hq1 : (advance noopCb fuel (setDowncount 0 st)).fst.queue =
          st.queue.dropWhile
            (dueBy (updateTimer (setDowncount 0 st)).global_timer) := by
        rw [advance_noop_fst fuel _ hin0 hlen0]
        rfl
      rcases List.mem_append.mp hp with hp | hp
      · rw [advance_noop_snd fuel _ hin0 hlen0] at hp
        obtain ⟨e, he, rfl⟩ := List.mem_map.mp hp
        exact (List.takeWhile_sublist _).subset he
      · have hi1 : (advance noopCb fuel (setDowncount 0 st)).fst.inbox = [] := by
          rw [advance_noop_fst fuel _ hin0 hlen0]
          exact hin
        have hl1 : (advance noopCb fuel (setDowncount 0 st)).fst.queue.length ≤ fuel := by
          rw [hq1]
          exact le_trans (List.Sublist.length_le (List.dropWhile_sublist _)) hlen
        have := ih _ hi1 hl1 p hp
        rw [hq1] at this
        exact (List.dropWhile_sublist _).subset this

/-- Claim C1: for every set of pending events with pairwise distinct trigger
times, repeatedly consuming the published slice and advancing fires the
events in strictly increasing trigger-time order — the queue never yields an
event with a smaller trigger time after one with a larger trigger time. -/
theorem c1_fired_in_strictly_increasing_trigger_time_order
    (fuel n : Nat) (st : SchedState)
    (hq : st.queue.Pairwise evKeyLT)
    (hdist : st.queue.Pairwise (fun a b => a.trigger_time ≠ b.trigger_time))
    (hin : st.inbox = [])
    (hfuel : st.queue.length ≤ fuel) :
    (runDrains noopCb fuel n st).Pairwise
      (fun a b => a.fst.trigger_time < b.fst.trigger_time) := by
  induction n generalizing st with
  | zero => simp [runDrains_zero]
  | succ m ih =>
      rw [runDrains_succ]
      have hin0 : (setDowncount 0 st).inbox = [] := hin
      have hlen0 : (setDowncount 0 st).queue.length ≤ fuel := hfuel
      have hq1 : (advance noopCb fuel (setDowncount 0 st)).fst.queue =
          st.queue.dropWhile
            (dueBy (updateTimer (setDowncount 0 st)).global_timer) := by
        rw [advance_noop_fst fuel _ hin0 hlen0]
        rfl
      have hi1 : (advance noopCb fuel (setDowncount 0 st)).fst.inbox = [] := by
        rw [advance_noop_fst fuel _ hin0 hlen0]
        exact hin
      have hl1 : (advance noopCb fuel (setDowncount 0 st)).fst.queue.length ≤ fuel := by
        rw [hq1]
        exact le_trans (List.Sublist.length_le (List.dropWhile_sublist _)) hfuel
      rw [advance_noop_snd fuel _ hin0 hlen0]
      refine List.pairwise_append.mpr ⟨?_, ?_, ?_⟩
      · rw [List.pairwise_map]
        have hsub := List.takeWhile_sublist
          (l := (setDowncount 0 st).queue)
          (dueBy (updateTimer (setDowncount 0 st)).global_timer)
        have h1 : ((setDowncount 0 st).queue.takeWhile
            (dueBy (updateTimer (setDowncount 0 st)).global_timer)).Pairwise evKeyLT :=
          hq.sublist hsub
        have h2 : ((setDowncount 0 st).queue.takeWhile
            (dueBy (updateTimer (setDowncount 0 st)).global_timer)).Pairwise
              (fun a b => a.trigger_time ≠ b.trigger_time) :=
          hdist.sublist hsub
        refine (h1.and h2).imp ?_
        intro a b hab
        rcases hab.1 with h | ⟨h, _⟩
        · exact h
        · exact absurd h hab.2
      · refine ih _ ?_ ?_ hi1 hl1
        · rw [hq1]
          exact hq.sublist (List.dropWhile_sublist _)
        · rw [hq1]
          exact hdist.sublist (List.dropWhile_sublist _)
      · intro a ha b hb
        obtain ⟨ea, hea, rfl⟩ := List.mem_map.mp ha
        have hale : ea.trigger_time ≤
            (updateTimer (setDowncount 0 st)).global_timer := mem_takeWhile_due hea
        have hbmem := runDrains_fst_mem fuel m _ hi1 hl1 b hb
        rw [hq1] at hbmem
        have hblt := pairwise_dropWhile_not_due hq b.fst hbmem
        exact lt_of_le_of_lt hale hblt

/-- If the callback never moves the virtual timer, neither does the draining
loop: the timer set at the top of `advance` stays fixed for the whole
drain. -/
lemma drainLoop_timer_invariant (cb : Callback)
    (hcb : ∀ et ud lat s, (cb et ud lat s).global_timer = s.global_timer) :
    ∀ (fuel : Nat) (st : SchedState) (log : List Fired),
      ((drainLoop cb fuel st log).fst).global_timer = st.global_timer := by
  intro fuel
  induction fuel with
  | zero => intro st log; rfl
  | succ n ih =>
      intro st log
      match hq : st.queue with
      | [] => rw [drainLoop_queue_nil hq]
      | e :: rest =>
          by_cases hd : e.trigger_time ≤ st.global_timer
          · rw [drainLoop_due hq hd, ih]
            rw [hcb]
          · rw [drainLoop_not_due hq hd]

lemma scheduleCore_global_timer (o : Int) (et : EventHandle) (ud : Nat)
    (st : SchedState) : (scheduleCore o et ud st).global_timer = st.global_timer := by
  unfold scheduleCore
  dsimp only
  split
  · split <;> rfl
  · rfl

/-- Claim C1 witness: the `BasicOrder` scenario satisfies every hypothesis
and its five advances fire D, B, C, A, E in strictly increasing
trigger-time order. -/
theorem c1_witness :
    basicOrderState.queue.Pairwise evKeyLT ∧
    basicOrderState.queue.Pairwise (fun a b => a.trigger_time ≠ b.trigger_time) ∧
    basicOrderState.inbox = [] ∧
    basicOrderState.queue.length ≤ 8 ∧
    (runDrains noopCb 8 5 basicOrderState).Pairwise
      (fun a b => a.fst.trigger_time < b.fst.trigger_time) :=
  ⟨by decide, by decide, by decide, by decide,
    c1_fired_in_strictly_increasing_trigger_time_order 8 5 basicOrderState
      (by decide) (by decide) (by decide) (by decide)⟩

/-- Claim C5: at the end of every advance the published downcount equals
`min MaxSliceLength (round ((min_trigger_time - global_timer) *
slice_factor))` when the queue is non-empty and
`round (MaxSliceLength * slice_factor)` when it is empty, where
`slice_factor` is the snapshot taken by that advance. -/
theorem c5_published_downcount_formula (cb : Callback) (fuel : Nat)
    (st : SchedState)
    (hd : 0 < ((advance cb fuel st).fst).slice_factor.den) :
    ((advance cb fuel st).fst).downcount =
      match ((advance cb fuel st).fst).queue.head? with
      | none =>
          round ((MaxSliceLength : ℚ) *
            qfactor ((advance cb fuel st).fst).slice_factor)
      | some e =>
          min MaxSliceLength
            (round
              (((e.trigger_time - ((advance cb fuel st).fst).global_timer : Int) : ℚ) *
                qfactor ((advance cb fuel st).fst).slice_factor)) := by
  rw [advance_fst] at hd ⊢
  rw [publishSlice_downcount]
  have hsf : (publishSlice (drainLoop cb fuel (mergeInbox (updateTimer st)) []).fst).slice_factor
      = (drainLoop cb fuel (mergeInbox (updateTimer st)) []).fst.speed_factor := rfl
  rcases hh : (publishSlice (drainLoop cb fuel (mergeInbox (updateTimer st)) []).fst).queue.head?
    with _ | e
  · simp only [hh]
    unfold qfactor
    exact roundMul_eq hd
  · simp only [hh]
    unfold qfactor
    rw [roundMul_eq hd]

/-- Claim C5 witness: the formula instantiated on a freshly initialised
scheduler after one advance. -/
theorem c5_witness :
    0 < ((advance noopCb 3 initState).fst).slice_factor.den ∧
    ((advance noopCb 3 initState).fst).downcount =
      match ((advance noopCb 3 initState).fst).queue.head? with
      | none =>
          round ((MaxSliceLength : ℚ) *
            qfactor ((advance noopCb 3 initState).fst).slice_factor)
      | some e =>
          min MaxSliceLength
            (round
              (((e.trigger_time - ((advance noopCb 3 initState).fst).global_timer : Int) : ℚ) *
                qfactor ((advance noopCb 3 initState).fst).slice_factor)) :=
  ⟨by decide, c5_published_downcount_formula noopCb 3 initState (by decide)⟩

/-- Claim C8: a core-thread schedule call never raises the published
downcount; when the new event is not the queue's new minimum the downcount is
untouched. -/
theorem c8_schedule_never_raises_downcount (o : Int) (et : EventHandle)
    (ud : Nat) (st : SchedState) :
    (scheduleCore o et ud st).downcount ≤ st.downcount ∧
      ((qinsert ⟨st.global_timer + o, et, ud, st.next_seq⟩ st.queue).head? ≠
          some ⟨st.global_timer + o, et, ud, st.next_seq⟩ →
        (scheduleCore o et ud st).downcount = st.downcount) := by
  unfold scheduleCore
  dsimp only
  constructor
  · split
    · split
      · rename_i hlt
        exact le_of_lt hlt
      · exact le_refl _
    · exact le_refl _
  · intro h
    rw [if_neg h]

/-- Claim C8 witness: scheduling offset 800 while offset-500 work is already
nearest leaves the downcount untouched. -/
theorem c8_witness :
    (qinsert ⟨(scheduleCore 500 1 144 (scheduleCore 1000 0 42 initState)).global_timer + 800,
        2, 93, (scheduleCore 500 1 144 (scheduleCore 1000 0 42 initState)).next_seq⟩
      (scheduleCore 500 1 144 (scheduleCore 1000 0 42 initState)).queue).head? ≠
      some ⟨(scheduleCore 500 1 144 (scheduleCore 1000 0 42 initState)).global_timer + 800,
        2, 93, (scheduleCore 500 1 144 (scheduleCore 1000 0 42 initState)).next_seq⟩ ∧
    (scheduleCore 800 2 93 (scheduleCore 500 1 144 (scheduleCore 1000 0 42 initState))).downcount =
      (scheduleCore 500 1 144 (scheduleCore 1000 0 42 initState)).downcount :=
  ⟨by decide,
    (c8_schedule_never_raises_downcount 800 2 93
      (scheduleCore 500 1 144 (scheduleCore 1000 0 42 initState))).2 (by decide)⟩

/-- Claim C3 counterexample: after `advance` publishes the `MaxSliceLength`
cap, scheduling an event 30000 cycles ahead makes it the queue's minimum yet
leaves the downcount at 20000, while the claim's formula demands
`max 0 (round ((30000 - 0) * 1)) = 30000`. -/
theorem c3_counterexample :
    (scheduleCore 30000 7 42 initState).queue.head? = some ⟨30000, 7, 42, 0⟩ ∧
    (scheduleCore 30000 7 42 initState).downcount = 20000 ∧
    (scheduleCore 30000 7 42 initState).downcount ≠
      max 0 (round (((30000 - (0 : Int) : Int)) * qfactor initState.speed_factor)) := by
  refine ⟨by decide, by decide, ?_⟩
  show _ ≠ max 0 (round (((30000 - (0 : Int) : Int) : ℚ) *
    ((((1 : Int) : ℚ)) / (((1 : Int) : ℚ)))))
  rw [← roundMul_eq (show (0 : Int) < 1 by norm_num)]
  decide

/-- Claim C3 amended: immediately after a core-thread schedule call whose
event becomes the queue's new minimum, the published downcount equals
`min (previous downcount) (max 0 (round (offset * speed_factor)))` — the
recomputed value is additionally clamped so that scheduling never raises the
downcount. -/
theorem c3_downcount_after_new_minimum (o : Int) (et : EventHandle) (ud : Nat)
    (st : SchedState) (hd : 0 < st.speed_factor.den)
    (hmin : (qinsert ⟨st.global_timer + o, et, ud, st.next_seq⟩ st.queue).head? =
      some ⟨st.global_timer + o, et, ud, st.next_seq⟩) :
    (scheduleCore o et ud st).downcount =
      min st.downcount (max 0 (round ((o : ℚ) * qfactor st.speed_factor))) := by
  unfold scheduleCore
  dsimp only
  rw [if_pos hmin]
  unfold qfactor
  rw [← roundMul_eq hd]
  split
  · rename_i hlt
    exact (min_eq_right (le_of_lt hlt)).symm
  · rename_i hge
    exact (min_eq_left (not_lt.mp hge)).symm

/-- Claim C3 witness: scheduling offset 1000 on a fresh scheduler publishes
`min 20000 (max 0 (round 1000)) = 1000`. -/
theorem c3_witness :
    0 < initState.speed_factor.den ∧
    (qinsert ⟨initState.global_timer + 1000, 0, 42, initState.next_seq⟩
        initState.queue).head? =
      some ⟨initState.global_timer + 1000, 0, 42, initState.next_seq⟩ ∧
    (scheduleCore 1000 0 42 initState).downcount =
      min initState.downcount
        (max 0 (round ((1000 : ℚ) * qfactor initState.speed_factor))) :=
  ⟨by decide, by decide,
    c3_downcount_after_new_minimum 1000 0 42 initState (by decide) (by decide)⟩

/-- Scheduling into an empty queue with an overdue (negative) offset while
the published downcount is still positive: the event is inserted, the
downcount is clamped to zero, and the slice length shrinks by the consumed
difference. -/
lemma scheduleCore_past_empty {d : Int} {et : EventHandle} {ud : Nat}
    {st : SchedState} (hd : d < 0) (hq : st.queue = [])
    (hdc : 0 < st.downcount)
    (hsfn : 0 < st.speed_factor.num) (hsfd : 0 < st.speed_factor.den) :
    scheduleCore d et ud st =
      { st with
        queue := [⟨st.global_timer + d, et, ud, st.next_seq⟩]
        next_seq := st.next_seq + 1
        downcount := 0
        slice_length := st.slice_length - st.downcount } := by
  have hnd : max 0 (roundMul d st.speed_factor.num st.speed_factor.den) = 0 := by
    refine max_eq_left ?_
    rw [roundMul_eq hsfd]
    refine round_nonpos_of_nonpos ?_
    refine mul_nonpos_iff.mpr (Or.inr ⟨?_, ?_⟩)
    · exact_mod_cast hd.le
    · positivity
  unfold scheduleCore
  dsimp only
  rw [hq]
  have hq1 : qinsert ⟨st.global_timer + d, et, ud, st.next_seq⟩ ([] : List PendingEvent) =
      [⟨st.global_timer + d, et, ud, st.next_seq⟩] := rfl
  rw [hq1]
  simp only [List.head?_cons, if_true]
  rw [hnd, if_pos hdc]
  simp

/-- Claim C6: a core-thread schedule with any negative offset, issued while
the core has not yet consumed its slice, clamps the published downcount to
zero (never negative), and the very next advance fires the event with
lateness `global_timer - trigger_time`. -/
theorem c6_negative_offset_clamped_and_fired (d : Int) (et : EventHandle)
    (ud : Nat) (st : SchedState) (fuel : Nat)
    (hd : d < 0) (hq : st.queue = []) (hin : st.inbox = [])
    (hdc : 0 < st.downcount) (hds : st.downcount ≤ st.slice_length)
    (hsfn : 0 < st.speed_factor.num) (hsfd : 0 < st.speed_factor.den)
    (hslfn : 0 < st.slice_factor.num) (hslfd : 0 < st.slice_factor.den) :
    (scheduleCore d et ud st).downcount = 0 ∧
    (advance noopCb (fuel + 1) (scheduleCore d et ud st)).snd =
      [(⟨st.global_timer + d, et, ud, st.next_seq⟩,
        (updateTimer (scheduleCore d et ud st)).global_timer -
          (st.global_timer + d))] := by
  rw [scheduleCore_past_empty hd hq hdc hsfn hsfd]
  refine ⟨rfl, ?_⟩
  rw [advance_snd]
  have hin2 : (updateTimer { st with
      queue := [⟨st.global_timer + d, et, ud, st.next_seq⟩]
      next_seq := st.next_seq + 1
      downcount := 0
      slice_length := st.slice_length - st.downcount }).inbox = [] := hin
  rw [mergeInbox_of_nil hin2]
  have hR : 0 ≤ roundDiv (st.slice_length - st.downcount - 0)
      st.slice_factor.num st.slice_factor.den := by
    rw [roundDiv_eq hslfn hslfd]
    refine round_nonneg_of_nonneg ?_
    have h1 : (0 : ℚ) ≤ ((st.slice_length - st.downcount - 0 : Int) : ℚ) := by
      exact_mod_cast (by omega : (0 : Int) ≤ st.slice_length - st.downcount - 0)
    have h2 : (0 : ℚ) < (st.slice_factor.num : ℚ) / (st.slice_factor.den : ℚ) := by
      have hn : (0 : ℚ) < (st.slice_factor.num : ℚ) := by exact_mod_cast hslfn
      have hdn : (0 : ℚ) < (st.slice_factor.den : ℚ) := by exact_mod_cast hslfd
      positivity
    positivity
  have hdue : st.global_timer + d ≤ st.global_timer +
      roundDiv (st.slice_length - st.downcount - 0)
        st.slice_factor.num st.slice_factor.den := by omega
  rw [drainLoop_due rfl hdue]
  rw [drainLoop_queue_nil rfl]
  rfl

/-- Claim C6 witness: `schedule (-1000)` on a fresh scheduler publishes
downcount 0 and the next advance fires it with lateness 1000. -/
theorem c6_witness :
    (scheduleCore (-1000) 0 42 initState).downcount = 0 ∧
    (advance noopCb 3 (scheduleCore (-1000) 0 42 initState)).snd =
      [(⟨initState.global_timer + -1000, 0, 42, initState.next_seq⟩,
        (updateTimer (scheduleCore (-1000) 0 42 initState)).global_timer -
          (initState.global_timer + -1000))] :=
  c6_negative_offset_clamped_and_fired (-1000) 0 42 initState 2
    (by decide) (by decide) (by decide) (by decide) (by decide)
    (by decide) (by decide) (by decide) (by decide)

/-- Claim C4 counterexample: with slice factor `f = 3/4` and an overrun of
`k = 1` real cycle past a slice published for the event one virtual cycle
ahead, the event fires with lateness 2, while the claim demands
`round (k / f) = round (4/3) = 1`. -/
theorem c4_counterexample :
    c4state.slice_length =
      round (((1 - (0 : Int) : Int) : ℚ) * qfactor c4state.slice_factor) ∧
    c4state.downcount = -1 ∧
    (advance noopCb 4 c4state).snd = [(⟨1, 0, 0, 0⟩, 2)] ∧
    (2 : Int) ≠ round (((1 : Int) : ℚ) / qfactor c4state.slice_factor) := by
  refine ⟨?_, by decide, by decide, ?_⟩
  · show (1 : Int) = round (((1 - (0 : Int) : Int) : ℚ) *
      (((3 : Int) : ℚ) / ((4 : Int) : ℚ)))
    rw [← roundMul_eq (show (0 : Int) < 4 by norm_num)]
    decide
  · show (2 : Int) ≠ round (((1 : Int) : ℚ) /
      (((3 : Int) : ℚ) / ((4 : Int) : ℚ)))
    rw [← roundDiv_eq (show (0 : Int) < 3 by norm_num) (show (0 : Int) < 4 by norm_num)]
    decide

/-- Claim C4 amended: if the core overruns by `k ≥ 0` real cycles a slice
that was published exactly for the queue's nearest event (an integral number
`m` of real cycles for the event's virtual distance), then the advance adds
`round (executed / slice_factor)` to the global timer and the first fired
event receives lateness exactly `round (k / slice_factor)`; without the
integrality condition the lateness can differ by a rounding error. -/
theorem c4_lateness_of_overrun (st : SchedState) (k m : Int) (e : PendingEvent)
    (rest : List PendingEvent) (fuel : Nat)
    (hq : st.queue = e :: rest) (hin : st.inbox = [])
    (hk : 0 ≤ k) (hdc : st.downcount = -k)
    (hfn : 0 < st.slice_factor.num) (hfd : 0 < st.slice_factor.den)
    (hint : ((e.trigger_time - st.global_timer : Int) : ℚ) *
      qfactor st.slice_factor = (m : ℚ))
    (hsl : st.slice_length = m) :
    (advance noopCb (fuel + 1) st).fst.global_timer =
        st.global_timer +
          round (((st.slice_length - st.downcount : Int) : ℚ) /
            qfactor st.slice_factor) ∧
    (advance noopCb (fuel + 1) st).snd.head? =
        some (e, round ((k : ℚ) / qfactor st.slice_factor)) := by
  have hf0 : (0 : ℚ) < qfactor st.slice_factor := by
    unfold qfactor
    have h1 : (0 : ℚ) < (st.slice_factor.num : ℚ) := by exact_mod_cast hfn
    have h2 : (0 : ℚ) < (st.slice_factor.den : ℚ) := by exact_mod_cast hfd
    positivity
  have hfne : qfactor st.slice_factor ≠ 0 := ne_of_gt hf0
  have hRdef : roundDiv (st.slice_length - st.downcount)
      st.slice_factor.num st.slice_factor.den =
      round (((st.slice_length - st.downcount : Int) : ℚ) /
        qfactor st.slice_factor) := by
    rw [roundDiv_eq hfn hfd]
    rfl
  have hsum : ((st.slice_length - st.downcount : Int) : ℚ) /
      qfactor st.slice_factor =
      ((e.trigger_time - st.global_timer : Int) : ℚ) +
        (k : ℚ) / qfactor st.slice_factor := by
    have h1 : ((st.slice_length - st.downcount : Int) : ℚ) =
        ((e.trigger_time - st.global_timer : Int) : ℚ) *
          qfactor st.slice_factor + (k : ℚ) := by
      rw [hint, hsl, hdc]
      push_cast
      ring
    rw [h1, add_div, mul_div_cancel_right₀ _ hfne]
  have hround : round (((st.slice_length - st.downcount : Int) : ℚ) /
      qfactor st.slice_factor) =
      (e.trigger_time - st.global_timer) +
        round ((k : ℚ) / qfactor st.slice_factor) := by
    rw [hsum, round_int_add]
  have hkf0 : 0 ≤ round ((k : ℚ) / qfactor st.slice_factor) :=
    round_nonneg_of_nonneg (div_nonneg (by exact_mod_cast hk) hf0.le)
  have hgt : (updateTimer st).global_timer =
      e.trigger_time + round ((k : ℚ) / qfactor st.slice_factor) := by
    show st.global_timer + roundDiv (st.slice_length - st.downcount)
      st.slice_factor.num st.slice_factor.den = _
    rw [hRdef, hround]
    ring
  have hin2 : (updateTimer st).inbox = [] := hin
  constructor
  · rw [advance_fst, publishSlice_global_timer,
      drainLoop_timer_invariant noopCb (fun _ _ _ _ => rfl),
      mergeInbox_of_nil hin2]
    show st.global_timer + roundDiv (st.slice_length - st.downcount)
      st.slice_factor.num st.slice_factor.den = _
    rw [hRdef]
  · rw [advance_snd, mergeInbox_of_nil hin2]
    have hdue : e.trigger_time ≤ (updateTimer st).global_timer := by
      rw [hgt]
      exact le_add_of_nonneg_right hkf0
    have hq2 : (updateTimer st).queue = e :: rest := hq
    rw [drainLoop_due hq2 hdue]
    obtain ⟨t, ht⟩ := drainLoop_snd_append noopCb fuel
      (noopCb e.event_type e.user_data
        ((updateTimer st).global_timer - e.trigger_time)
        { updateTimer st with queue := rest })
      ([] ++ [(e, (updateTimer st).global_timer - e.trigger_time)])
    rw [ht]
    simp only [List.nil_append, List.cons_append, List.head?_cons]
    rw [hgt, add_sub_cancel_left]

/-- Claim C4 witness: slice factor 2, event 100 virtual cycles ahead (slice
200 real cycles), overrun by 20 real cycles — the event fires with lateness
`round (20 / 2) = 10`, matching the `PredictableLateness` test pattern. -/
theorem c4_witness :
    (advance noopCb 3
        { global_timer := 0, downcount := -20, slice_length := 200,
          speed_factor := ⟨2, 1⟩, slice_factor := ⟨2, 1⟩,
          queue := [⟨100, 0, 42, 0⟩], inbox := [], next_seq := 1 }).fst.global_timer =
      0 + round (((200 - (-20 : Int) : Int) : ℚ) / qfactor (⟨2, 1⟩ : Factor)) ∧
    (advance noopCb 3
        { global_timer := 0, downcount := -20, slice_length := 200,
          speed_factor := ⟨2, 1⟩, slice_factor := ⟨2, 1⟩,
          queue := [⟨100, 0, 42, 0⟩], inbox := [], next_seq := 1 }).snd.head? =
      some (⟨100, 0, 42, 0⟩, round ((20 : ℚ) / qfactor (⟨2, 1⟩ : Factor))) :=
  c4_lateness_of_overrun
    { global_timer := 0, downcount := -20, slice_length := 200,
      speed_factor := ⟨2, 1⟩, slice_factor := ⟨2, 1⟩,
      queue := [⟨100, 0, 42, 0⟩], inbox := [], next_seq := 1 }
    20 200 ⟨100, 0, 42, 0⟩ [] 2 (by decide) (by decide) (by decide) (by decide)
    (by decide) (by decide) (by norm_num [qfactor]) (by decide)

lemma scheduleCore_queue (o : Int) (et : EventHandle) (ud : Nat)
    (st : SchedState) :
    (scheduleCore o et ud st).queue =
      qinsert ⟨st.global_timer + o, et, ud, st.next_seq⟩ st.queue := by
  unfold scheduleCore
  dsimp only
  split
  · split <;> rfl
  · rfl

lemma scheduleCore_inbox (o : Int) (et : EventHandle) (ud : Nat)
    (st : SchedState) : (scheduleCore o et ud st).inbox = st.inbox := by
  unfold scheduleCore
  dsimp only
  split
  · split <;> rfl
  · rfl

lemma scheduleCore_next_seq (o : Int) (et : EventHandle) (ud : Nat)
    (st : SchedState) : (scheduleCore o et ud st).next_seq = st.next_seq + 1 := by
  unfold scheduleCore
  dsimp only
  split
  · split <;> rfl
  · rfl

/-- Submitting a batch of equal-offset events in order appends them to the
queue in submission order with consecutive sequence numbers, leaving the
timer and inbox untouched. -/
lemma scheduleAll_spec (o : Int) :
    ∀ (evs : List (EventHandle × Nat)) (st : SchedState),
      (∀ x ∈ st.queue,
        x.trigger_time = st.global_timer + o ∧ x.sequence < st.next_seq) →
      (scheduleAll o evs st).queue =
          st.queue ++ buildEvents o st.global_timer evs st.next_seq ∧
        (scheduleAll o evs st).global_timer = st.global_timer ∧
        (scheduleAll o evs st).inbox = st.inbox := by
  intro evs
  induction evs with
  | nil =>
      intro st _
      exact ⟨by simp [scheduleAll, buildEvents], rfl, rfl⟩
  | cons p rest ih =>
      intro st h
      have hstep_queue : (scheduleCore o p.1 p.2 st).queue =
          st.queue ++ [⟨st.global_timer + o, p.1, p.2, st.next_seq⟩] := by
        rw [scheduleCore_queue]
        refine qinsert_append_of_not_lt ?_
        intro x hx
        rcases h x hx with ⟨h1, h2⟩
        intro hlt
        rcases hlt with hlt | ⟨heq, hseq⟩
        · have he : (⟨st.global_timer + o, p.1, p.2, st.next_seq⟩ :
              PendingEvent).trigger_time = st.global_timer + o := rfl
          rw [he] at hlt
          omega
        · have he : (⟨st.global_timer + o, p.1, p.2, st.next_seq⟩ :
              PendingEvent).sequence = st.next_seq := rfl
          rw [he] at hseq
          omega
      have hstep_gt := scheduleCore_global_timer o p.1 p.2 st
      have hstep_inbox := scheduleCore_inbox o p.1 p.2 st
      have hstep_seq := scheduleCore_next_seq o p.1 p.2 st
      have hinv : ∀ x ∈ (scheduleCore o p.1 p.2 st).queue,
          x.trigger_time = (scheduleCore o p.1 p.2 st).global_timer + o ∧
            x.sequence < (scheduleCore o p.1 p.2 st).next_seq := by
        rw [hstep_queue, hstep_gt, hstep_seq]
        intro x hx
        rcases List.mem_append.mp hx with hx | hx
        · rcases h x hx with ⟨h1, h2⟩
          exact ⟨h1, by omega⟩
        · rcases List.mem_singleton.mp hx with rfl
          exact ⟨rfl, Nat.lt_succ_self st.next_seq⟩
      obtain ⟨q1, g1, i1⟩ := ih (scheduleCore o p.1 p.2 st) hinv
      have hstep : scheduleAll o (p :: rest) st =
          scheduleAll o rest (scheduleCore o p.1 p.2 st) := rfl
      rw [hstep]
      refine ⟨?_, by rw [g1, hstep_gt], by rw [i1, hstep_inbox]⟩
      rw [q1, hstep_queue, hstep_gt, hstep_seq, List.append_assoc]
      rfl

lemma buildEvents_trigger_time (o gt : Int) :
    ∀ (evs : List (EventHandle × Nat)) (seq : Nat),
      ∀ x ∈ buildEvents o gt evs seq, x.trigger_time = gt + o := by
  intro evs
  induction evs with
  | nil => intro seq x hx; cases hx
  | cons p rest ih =>
      intro seq x hx
      rcases List.mem_cons.mp hx with rfl | hx
      · rfl
      · exact ih (seq + 1) x hx

lemma buildEvents_map (o gt : Int) :
    ∀ (evs : List (EventHandle × Nat)) (seq : Nat),
      (buildEvents o gt evs seq).map (fun e => (e.event_type, e.user_data)) = evs := by
  intro evs
  induction evs with
  | nil => intro seq; rfl
  | cons p rest ih =>
      intro seq
      show (p.1, p.2) :: _ = p :: rest
      rw [ih (seq + 1)]

lemma buildEvents_length (o gt : Int) :
    ∀ (evs : List (EventHandle × Nat)) (seq : Nat),
      (buildEvents o gt evs seq).length = evs.length := by
  intro evs
  induction evs with
  | nil => intro seq; rfl
  | cons p rest ih =>
      intro seq
      show _ + 1 = _ + 1
      rw [ih (seq + 1)]

/-- Claim C2: events submitted from the core thread in some order, all with
the same offset from the same global timer, fire in exactly that submission
order in the single advance that reaches their common trigger time. -/
theorem c2_equal_trigger_time_fifo (o : Int) (evs : List (EventHandle × Nat))
    (st : SchedState) (fuel : Nat)
    (hq : st.queue = []) (hin : st.inbox = [])
    (hfuel : evs.length ≤ fuel)
    (hdue : st.global_timer + o ≤
      (updateTimer (setDowncount 0 (scheduleAll o evs st))).global_timer) :
    (advance noopCb fuel (setDowncount 0 (scheduleAll o evs st))).snd.map
        (fun p => (p.1.event_type, p.1.user_data)) = evs := by
  obtain ⟨q1, g1, i1⟩ := scheduleAll_spec o evs st
    (by rw [hq]; intro x hx; cases hx)
  have hq2 : (setDowncount 0 (scheduleAll o evs st)).queue =
      buildEvents o st.global_timer evs st.next_seq := by
    rw [setDowncount_queue, q1, hq, List.nil_append]
  have hin2 : (setDowncount 0 (scheduleAll o evs st)).inbox = [] := by
    rw [setDowncount_inbox, i1, hin]
  have hlen2 : (setDowncount 0 (scheduleAll o evs st)).queue.length ≤ fuel := by
    rw [hq2, buildEvents_length]
    exact hfuel
  rw [advance_noop_snd fuel _ hin2 hlen2, hq2]
  have hall : ∀ x ∈ buildEvents o st.global_timer evs st.next_seq,
      dueBy (updateTimer (setDowncount 0 (scheduleAll o evs st))).global_timer x := by
    intro x hx
    have htt := buildEvents_trigger_time o st.global_timer evs st.next_seq x hx
    show decide _ = true
    rw [decide_eq_true_eq, htt]
    exact hdue
  rw [List.takeWhile_eq_self_iff.mpr hall, List.map_map]
  exact buildEvents_map o st.global_timer evs st.next_seq

/-- Claim C2 witness: the `SharedSlot` scenario — five events with offset
1000 submitted in order fire in exactly that order in one advance. -/
theorem c2_witness :
    initState.queue = [] ∧
    ([((0 : EventHandle), (42 : Nat)), (1, 144), (2, 93), (3, 1026), (4, 7)].length ≤ 8) ∧
    initState.global_timer + 1000 ≤
      (updateTimer (setDowncount 0 (scheduleAll 1000
        [(0, 42), (1, 144), (2, 93), (3, 1026), (4, 7)] initState))).global_timer ∧
    (advance noopCb 8 (setDowncount 0 (scheduleAll 1000
        [(0, 42), (1, 144), (2, 93), (3, 1026), (4, 7)] initState))).snd.map
        (fun p => (p.1.event_type, p.1.user_data)) =
      [(0, 42), (1, 144), (2, 93), (3, 1026), (4, 7)] :=
  ⟨by decide, by decide, by decide,
    c2_equal_trigger_time_fifo 1000
      [(0, 42), (1, 144), (2, 93), (3, 1026), (4, 7)] initState 8
      (by decide) (by decide) (by decide) (by decide)⟩

/-- Claim C7: during a drain, a due queue head (trigger time at or before
the timer) is popped and fed to its callback within the same drain, while a
not-yet-due head ends the drain; concretely, the chain-scheduling scenario
runs the rescheduling callback exactly three times across successive
advances — one run per advance, each rescheduled event waiting for a later
advance — and then stops. -/
theorem c7_chain_scheduling_visibility :
    (∀ (cb : Callback) (fuel : Nat) (st : SchedState) (log : List Fired)
        (e : PendingEvent) (rest : List PendingEvent),
      st.queue = e :: rest → e.trigger_time ≤ st.global_timer →
      drainLoop cb (fuel + 1) st log =
        drainLoop cb fuel
          (cb e.event_type e.user_data (st.global_timer - e.trigger_time)
            { st with queue := rest })
          (log ++ [(e, st.global_timer - e.trigger_time)])) ∧
    (∀ (cb : Callback) (fuel : Nat) (st : SchedState) (log : List Fired)
        (e : PendingEvent) (rest : List PendingEvent),
      st.queue = e :: rest → st.global_timer < e.trigger_time →
      drainLoop cb fuel st log = (st, log)) ∧
    (chainAdv 1).snd = [(⟨800, 0, 42, 0⟩, 0)] ∧
    (chainAdv 2).snd = [(⟨1000, 1, 144, 1⟩, 0), (⟨1000, rsHandle, 3, 3⟩, 0)] ∧
    (chainAdv 3).snd = [(⟨2000, rsHandle, 2, 4⟩, 0)] ∧
    (chainAdv 4).snd = [(⟨2200, 2, 93, 2⟩, 0)] ∧
    (chainAdv 5).snd = [(⟨3000, rsHandle, 1, 5⟩, 0)] ∧
    (chainAdv 5).fst.queue = [] ∧
    (chainAdv 6).snd = [] ∧
    (((chainAdv 1).snd ++ (chainAdv 2).snd ++ (chainAdv 3).snd ++
        (chainAdv 4).snd ++ (chainAdv 5).snd ++ (chainAdv 6).snd).countP
      (fun p => p.1.event_type == rsHandle)) = 3 := by
  refine ⟨?_, ?_, by decide, by decide, by decide, by decide, by decide,
    by decide, by decide, by decide⟩
  · intro cb fuel st log e rest hq hd
    exact drainLoop_due hq hd
  · intro cb fuel st log e rest hq hd
    exact drainLoop_not_due hq (not_le.mpr hd)

/-- Claim C7 witness: a drain stops at a not-yet-due head. -/
theorem c7_witness :
    drainLoop noopCb 5 { initState with queue := [⟨99, 0, 5, 0⟩] } [] =
      ({ initState with queue := [⟨99, 0, 5, 0⟩] }, []) :=
  c7_chain_scheduling_visibility.2.1 noopCb 5
    { initState with queue := [⟨99, 0, 5, 0⟩] } [] ⟨99, 0, 5, 0⟩ []
    (by decide) (by decide)

/-- Claim C10: the global timer is updated once at the top of an advance and
stays fixed for the whole drain (callbacks built from `scheduleCore` cannot
move it); consequently, in the schedule-into-past scenario the event a
callback schedules 1000 cycles into the past fires within the same advance
with lateness exactly 1000. -/
theorem c10_timer_fixed_during_drain :
    (∀ cb : Callback,
      (∀ et ud lat s, (cb et ud lat s).global_timer = s.global_timer) →
      ∀ (fuel : Nat) (st : SchedState) (log : List Fired),
        ((drainLoop cb fuel st log).fst).global_timer = st.global_timer) ∧
    (∀ (o : Int) (et : EventHandle) (ud : Nat) (s : SchedState),
      (scheduleCore o et ud s).global_timer = s.global_timer) ∧
    (advance chainCallback 5 (setDowncount 0 c10state)).snd =
      [(⟨1000, chainCbHandle, 43, 0⟩, 0), (⟨0, 0, 42, 1⟩, 1000)] :=
  ⟨drainLoop_timer_invariant, scheduleCore_global_timer, by decide⟩

/-- Claim C10 witness: the drain of the schedule-into-past advance leaves
the timer where the advance set it. -/
theorem c10_witness :
    ((drainLoop chainCallback 5
        (mergeInbox (updateTimer (setDowncount 0 c10state))) []).fst).global_timer =
      (mergeInbox (updateTimer (setDowncount 0 c10state))).global_timer :=
  c10_timer_fixed_during_drain.1 chainCallback
    (fun et ud lat s => by
      unfold chainCallback
      split
      · exact scheduleCore_global_timer (-1000) 0 (ud - 1) s
      · rfl)
    5 (mergeInbox (updateTimer (setDowncount 0 c10state))) []

/-- Merging staged entries empties nothing else: timer, inbox untouched;
sequence counter advances by the number of entries; existing queue members
survive; every staged event lands in the queue. -/
lemma mergeList_spec :
    ∀ (entries : List InboxEntry) (st : SchedState),
      (mergeList entries st).inbox = st.inbox ∧
      (mergeList entries st).global_timer = st.global_timer ∧
      (mergeList entries st).next_seq = st.next_seq + entries.length ∧
      (∀ x ∈ st.queue, x ∈ (mergeList entries st).queue) ∧
      (∀ x ∈ stagedEvents entries st.next_seq, x ∈ (mergeList entries st).queue) := by
  intro entries
  induction entries with
  | nil =>
      intro st
      exact ⟨rfl, rfl, rfl, fun x hx => hx, fun x hx => (by cases hx)⟩
  | cons ent rest ih =>
      intro st
      have hstep : mergeList (ent :: rest) st =
          mergeList rest
            { st with
              queue := qinsert ⟨ent.trigger_time, ent.event_type, ent.user_data,
                st.next_seq⟩ st.queue
              next_seq := st.next_seq + 1 } := rfl
      obtain ⟨i1, g1, s1, mono1, staged1⟩ := ih
        { st with
          queue := qinsert ⟨ent.trigger_time, ent.event_type, ent.user_data,
            st.next_seq⟩ st.queue
          next_seq := st.next_seq + 1 }
      rw [hstep]
      refine ⟨i1, g1, ?_, ?_, ?_⟩
      · rw [s1]
        show st.next_seq + 1 + rest.length = st.next_seq + (ent :: rest).length
        rw [List.length_cons]
        omega
      · intro x hx
        exact mono1 x (mem_qinsert.mpr (Or.inr hx))
      · intro x hx
        rcases List.mem_cons.mp hx with rfl | hx
        · exact mono1 _ (mem_qinsert.mpr (Or.inl rfl))
        · exact staged1 x hx

/-- Staged events keep submission order: sequence numbers start at `seq` and
strictly increase along the list. -/
lemma stagedEvents_seq :
    ∀ (entries : List InboxEntry) (seq : Nat),
      (∀ x ∈ stagedEvents entries seq, seq ≤ x.sequence) ∧
      (stagedEvents entries seq).Pairwise (fun a b => a.sequence < b.sequence) := by
  intro entries
  induction entries with
  | nil => intro seq; exact ⟨fun x hx => (by cases hx), List.Pairwise.nil⟩
  | cons ent rest ih =>
      intro seq
      obtain ⟨hle, hpw⟩ := ih (seq + 1)
      constructor
      · intro x hx
        rcases List.mem_cons.mp hx with rfl | hx
        · exact le_refl _
        · exact (Nat.le_succ seq).trans (hle x hx)
      · refine List.pairwise_cons.mpr ⟨?_, hpw⟩
        intro b hb
        have := hle b hb
        show seq < b.sequence
        omega

/-- Claim C9 counterexample: in the stale-timer scenario of the
`ScheduleIntoPast` test, the staged request merges with the trigger time
computed at submission time (0, from the stale timer), not relative to the
merge-time timer (21000): the event fires with lateness 21000 — as the unit
test expects — whereas the merge-time reading would fire it with lateness
0. -/
theorem c9_counterexample :
    (mergeInbox (updateTimer (setDowncount 0 c9staged))).queue =
        [⟨0, 1, 144, 2⟩] ∧
    (updateTimer (setDowncount 0 c9staged)).global_timer + 0 = 21000 ∧
    ¬ ((mergeInbox (updateTimer (setDowncount 0 c9staged))).queue =
        [⟨21000, 1, 144, 2⟩]) ∧
    (advance noopCb 3 (setDowncount 0 c9staged)).snd =
        [(⟨0, 1, 144, 2⟩, 21000)] ∧
    (advanceSpecWords noopCb 3 (setDowncount 0 c9staged)).snd =
        [(⟨21000, 1, 144, 2⟩, 0)] := by
  refine ⟨by decide, by decide, by decide, by decide, by decide⟩

/-- Claim C9 amended: a `NonCoreThread` submission only appends to the
cross-thread inbox — queue, downcount and timer untouched — recording the
trigger time computed from the submitter's (possibly stale) read of the
global timer; the next advance drains the inbox, inserting every staged
request with that stored submission-time trigger time and fresh consecutive
sequence numbers in submission order. -/
theorem c9_cross_thread_staging (o : Int) (et : EventHandle) (ud : Nat)
    (st : SchedState) :
    (scheduleNonCore o et ud st).queue = st.queue ∧
    (scheduleNonCore o et ud st).downcount = st.downcount ∧
    (scheduleNonCore o et ud st).global_timer = st.global_timer ∧
    (scheduleNonCore o et ud st).inbox =
      st.inbox ++ [⟨o, st.global_timer + o, et, ud⟩] ∧
    (mergeInbox st).inbox = [] ∧
    (mergeInbox st).next_seq = st.next_seq + st.inbox.length ∧
    (∀ x ∈ stagedEvents st.inbox st.next_seq, x ∈ (mergeInbox st).queue) ∧
    (stagedEvents st.inbox st.next_seq).Pairwise
      (fun a b => a.sequence < b.sequence) := by
  obtain ⟨i1, g1, s1, mono1, staged1⟩ := mergeList_spec st.inbox
    { st with inbox := [] }
  refine ⟨rfl, rfl, rfl, rfl, i1, s1, staged1, ?_⟩
  exact (stagedEvents_seq st.inbox st.next_seq).2

/-- Claim C9 witness: the staged entry of the stale-timer scenario is merged
into the queue with its submission-time trigger time. -/
theorem c9_witness :
    (⟨0, 1, 144, 2⟩ : PendingEvent) ∈
        stagedEvents (setDowncount 0 c9staged).inbox
          (setDowncount 0 c9staged).next_seq ∧
    (⟨0, 1, 144, 2⟩ : PendingEvent) ∈
        (mergeInbox (setDowncount 0 c9staged)).queue :=
  ⟨by decide,
    (c9_cross_thread_staging 0 1 144 (setDowncount 0 c9staged)).2.2.2.2.2.2.1
      ⟨0, 1, 144, 2⟩ (by decide)⟩

end CoreTiming
